import Mathlib

/-!
# Verification of the splink parameter-estimation core

A shallow embedding of the splink repository's parameter-estimation and
blocking-cost code, together with theorems settling the frozen claims about
its natural-language specification.

Embedded modules:
* `splink/estimate_u.py` — the u-probability sampling estimator
  (`_num_target_rows_to_rows_to_sample`, `_num_target_rows_to_pairs_to_sample`,
  the dedupe/link-only branch structure of `estimate_u_values`, and the
  SQL-staging trace of `estimate_u_values`);
* `splink/params.py` — `Params.is_converged` and `_flatten_dict`;
* `splink/em_training_session.py` — `EMTrainingSession._training_log_message`,
  `_comparison_vectors`, `_train` (zero-pair check, EM invocation, fold-back of
  trained m/u values into the original settings object);
* `splink/analyse_blocking.py` — the match-key back-fill of
  `cumulative_comparisons_generated_by_blocking_rules` and the group-by /
  join / sum pipeline of
  `count_comparisons_from_blocking_rule_pre_filter_conditions`.

Python floats are modelled as real numbers where the code does real-valued
arithmetic (sqrt/log inversions), and as rationals where only comparisons and
subtraction matter (convergence thresholds).  Tables returned by the external
relational backend are modelled as lists of rows, and the backend's staged
query execution is modelled by evaluating the same relational operators
(group-by-count, inner join, sum) over those lists.
-/

namespace Splink

/-! ## `splink/estimate_u.py`: sampling-size inversions -/

/-- Model of `_num_target_rows_to_rows_to_sample` (estimate_u.py, lines 26-35):
`sample_rows = 0.5 * ((8 * target_rows + 1) ** 0.5 + 1)`, the solution of
`t = n(n-1)/2` for `n`. -/
noncomputable def numTargetRowsToRowsToSample (targetRows : ℝ) : ℝ :=
  0.5 * (Real.sqrt (8 * targetRows + 1) + 1)

/-- Model of the dedupe/link-and-dedupe sample-size cap in `estimate_u_values`
(estimate_u.py, lines 78-82): `if sample_size > count_rows: sample_size = count_rows`. -/
noncomputable def dedupeSampleSize (targetRows countRows : ℝ) : ℝ :=
  let sampleSize := numTargetRowsToRowsToSample targetRows
  if sampleSize > countRows then countRows else sampleSize

/-- Model of the sampling proportion in `estimate_u_values` (estimate_u.py,
lines 79-85): `proportion = sample_size / count_rows`, then
`if proportion >= 1.0: proportion = 1.0`.  Note the proportion is formed from
the uncapped sample size, exactly as in the source. -/
noncomputable def dedupeSampleProportion (targetRows countRows : ℝ) : ℝ :=
  let proportion := numTargetRowsToRowsToSample targetRows / countRows
  if proportion ≥ 1.0 then 1.0 else proportion

/-- Model of `_num_target_rows_to_pairs_to_sample` (estimate_u.py, lines 38-44):
`ceil(log10(1 - target_rows/total_rows) / log10(1 - 1/total_rows))`.
The inputs are integer row counts; Python's `/` is float division, modelled over ℝ. -/
noncomputable def numTargetRowsToPairsToSample (totalRows targetRows : ℕ) : ℤ :=
  ⌈Real.logb 10 (1 - (targetRows : ℝ) / (totalRows : ℝ)) /
    Real.logb 10 (1 - 1 / (totalRows : ℝ))⌉

/-- The two link-only sampling strategies of `estimate_u_values`. -/
inductive LinkOnlySampling where
  | fullCross
  | samplePairs (numberOfRowsToSample : ℤ)
deriving DecidableEq

/-- Model of the link-only branch of `estimate_u_values` (estimate_u.py,
lines 112-142): `total_rows = count_l * count_r`; if `target_rows >= total_rows`
skip sampling (use the full cross of both datasets), otherwise draw
`_num_target_rows_to_pairs_to_sample(total_rows, target_rows)` row pairs. -/
noncomputable def linkOnlySamplingPlan (countL countR targetRows : ℕ) : LinkOnlySampling :=
  let totalRows := countL * countR
  if targetRows ≥ totalRows then .fullCross
  else .samplePairs (numTargetRowsToPairsToSample totalRows targetRows)

/-- A drawn row pair: `(row_l, row_r, sample)` from the `generate_series`
subquery of `estimate_u_values` (estimate_u.py, lines 146-154). -/
structure RowPairDraw where
  rowL : ℕ
  rowR : ℕ
  sample : ℕ
deriving DecidableEq

/-- Helper for `sampledRowPairs`: scan the draws, keeping the first draw for
each distinct `(row_l, row_r)` key (the keys already emitted are in `seen`). -/
def sampledRowPairsAux : List RowPairDraw → List (ℕ × ℕ) → List RowPairDraw
  | [], _ => []
  | p :: rest, seen =>
    if (p.rowL, p.rowR) ∈ seen then sampledRowPairsAux rest seen
    else p :: sampledRowPairsAux rest ((p.rowL, p.rowR) :: seen)

/-- Model of the `select distinct row_l, row_r, first_value(sample)
over(partition by row_l, row_r) as sample_id` query of `estimate_u_values`
(estimate_u.py, lines 146-154): exact duplicate `(row_l, row_r)` pairs are
removed, each surviving pair keeping one representative sample id. -/
def sampledRowPairs (draws : List RowPairDraw) : List RowPairDraw :=
  sampledRowPairsAux draws []

/-! ## `splink/params.py`: EM convergence test -/

/-- Model of the key filter in `Params.is_converged` (params.py, lines 228-237):
`"_probability" in key.lower()` applied to a flattened parameter key
(lower-casing per character, as Python does for these ASCII keys). -/
def keyIsProbabilityKey (key : String) : Bool :=
  decide ("_probability".toList <:+: key.toList.map Char.toLower)

/-- Model of the list comprehension plus `all(diff)` of `Params.is_converged`
(params.py, lines 239 and 253): for each retained key of the latest flattened
parameters, look the key up in the previous flattened parameters (`none`
models the `KeyError` Python would raise on a missing key) and test
`abs(p_new[item] - p_old[item]) < threshold`; the result is the conjunction. -/
def allParamsConverged : List (String × ℚ) → List (String × ℚ) → ℚ → Option Bool
  | [], _, _ => some true
  | kv :: rest, pOld, threshold =>
    match pOld.lookup kv.1, allParamsConverged rest pOld threshold with
    | some oldVal, some b => some ((|kv.2 - oldVal| < threshold : Bool) && b)
    | _, _ => none

/-- Model of `Params.is_converged` (params.py, lines 223-253).  The latest and
previous parameter snapshots are given already flattened by `_flatten_dict`
(a list of `(flattened_key, value)` pairs); the function keeps exactly the
keys containing `"_probability"` and requires every retained absolute
difference to be strictly below the threshold. -/
def isConverged (pLatest pPrevious : List (String × ℚ)) (threshold : ℚ) : Option Bool :=
  let pNew := pLatest.filter (fun kv => keyIsProbabilityKey kv.1)
  let pOld := pPrevious.filter (fun kv => keyIsProbabilityKey kv.1)
  allParamsConverged pNew pOld threshold

/-! ## `splink/em_training_session.py`: the EM training session

The external relational backend is opaque; the comparison-vector rows that its
staged pipeline would return are supplied as a parameter (`backendRows`), and
the EM engine (`expectation_maximisation`, an external collaborator of this
module) is supplied as a function from comparison vectors to the history of
model snapshots.  The trace of backend round-trips and EM invocations is
returned alongside the result so that "no query was executed" is provable. -/

/-- An m/u probability value of a comparison level: either the
`LEVEL_NOT_OBSERVED_TEXT` sentinel or a numeric probability
(spec §9: tagged variant rather than a string mixed with floats). -/
inductive ProbValue where
  | notObserved
  | num (q : ℚ)
deriving DecidableEq

/-- One entry of a comparison level's trained-probability history:
the value together with the provenance description string. -/
structure TrainedProb where
  probability : ProbValue
  desc : String
deriving DecidableEq

/-- A comparison level of the model (excluding the null level), as used by the
fold-back loop of `EMTrainingSession._train`: its comparison-vector value, its
current m/u values, and its trained-probability histories. -/
structure CompLevel where
  comparisonVectorValue : ℤ
  mProbability : ProbValue
  uProbability : ProbValue
  trainedMProbabilities : List TrainedProb
  trainedUProbabilities : List TrainedProb
deriving DecidableEq

/-- A comparison of the model: output column name plus its comparison levels
excluding the null level (`_comparison_levels_excluding_null`). -/
structure ComparisonModel where
  outputColumnName : String
  comparisonLevels : List CompLevel
deriving DecidableEq

/-- The per-session training configuration recorded by
`EMTrainingSession.__init__` (em_training_session.py, lines 66 and 88-92). -/
structure TrainingConfig where
  fixMProbabilities : Bool
  fixUProbabilities : Bool
  fixProbabilityTwoRandomRecordsMatch : Bool
  blockingRuleSql : String

/-- Observable actions of a training run: a backend round-trip executing the
staged blocking/comparison-vector pipeline, or an invocation of the EM
engine. -/
inductive TrainEvent where
  | sqlPipelineExecuted
  | emEngineInvoked
deriving DecidableEq

/-- The two exception types a training run can raise: `ValueError`
(configuration error) or `EMTrainingException` (data error). -/
inductive TrainFailure where
  | valueError (msg : String)
  | emTrainingException (msg : String)
deriving DecidableEq

/-- Model of `EMTrainingSession._training_log_message` (em_training_session.py,
lines 139-151): raises `ValueError` when both m and u probabilities are fixed
(the message preserves the source's spelling). -/
def trainingLogMessage (cfg : TrainingConfig) : Except TrainFailure Unit :=
  if cfg.fixMProbabilities && cfg.fixUProbabilities then
    .error (.valueError "Can't train model if you fix both m and u probabilites")
  else .ok ()

/-- Model of `EMTrainingSession._comparison_vectors` (em_training_session.py,
lines 170-197): first `_training_log_message()` (which can raise), and only
then the staged blocking and comparison-vector queries, executed as one
backend pipeline whose resulting rows are `backendRows`. -/
def comparisonVectors {α : Type} (cfg : TrainingConfig) (backendRows : List α) :
    Except TrainFailure (List α) × List TrainEvent :=
  match trainingLogMessage cfg with
  | .error e => (.error e, [])
  | .ok () => (.ok backendRows, [TrainEvent.sqlPipelineExecuted])

/-- The literal text of the zero-pairs `EMTrainingException` message
(em_training_session.py, lines 206-218) before the first interpolation of
`br_sql = f"`...`"`. -/
def emTrainingMsgSeg1 : String := "Training rule `"

/-- The literal text of the zero-pairs message between its two interpolations
of `br_sql` (adjacent f-string literals merged, as Python does). -/
def emTrainingMsgSeg2 : String :=
  "` resulted in no record pairs.  This means that in the supplied data set " ++
  "there were no pairs of records for which `"

/-- The literal text of the zero-pairs message after the second interpolation
of `br_sql`. -/
def emTrainingMsgSeg3 : String :=
  "` was `true`.\n" ++
  "Expectation maximisation requires a substantial number of record " ++
  "comparisons to produce accurate parameter estimates - usually " ++
  "at least a few hundred, but preferably at least a few thousand.\n" ++
  "You must revise your training blocking rule so that the set of " ++
  "generated comparisons is not empty.  You can use " ++
  "`linker.count_num_comparisons_from_blocking_rule()` to compute " ++
  "the number of comparisons that will be generated by a blocking rule."

/-- The message of the `EMTrainingException` raised by
`EMTrainingSession._train` when the blocking rule yields no pairs
(em_training_session.py, lines 206-218): the source's f-string concatenation
with the `br_sql` interpolation inlined, yielding exactly the runtime
string. -/
def emTrainingExceptionMessage (blockingRuleSql : String) : String :=
  emTrainingMsgSeg1 ++ blockingRuleSql ++ emTrainingMsgSeg2 ++ blockingRuleSql ++
    emTrainingMsgSeg3

/-- Model of `ComparisonLevel._add_trained_m_probability`.  Modelled from the
spec: the method itself is not under `src/`; per spec §4.2/§4.3 trained values
are appended to the level's per-level trained-probability history together
with the provenance description. -/
def addTrainedM (origCl : CompLevel) (v : ProbValue) (d : String) : CompLevel :=
  { origCl with trainedMProbabilities := origCl.trainedMProbabilities ++ [⟨v, d⟩] }

/-- Model of `ComparisonLevel._add_trained_u_probability`.  Modelled from the
spec, symmetrically to `addTrainedM`. -/
def addTrainedU (origCl : CompLevel) (v : ProbValue) (d : String) : CompLevel :=
  { origCl with trainedUProbabilities := origCl.trainedUProbabilities ++ [⟨v, d⟩] }

/-- The m-side branch of the fold-back loop body of `EMTrainingSession._train`
(em_training_session.py, lines 249-262): if the trained level's m value is the
not-observed sentinel, record the sentinel; otherwise record the numeric
value. -/
def foldBackM (trained : ProbValue) (d : String) (origCl : CompLevel) : CompLevel :=
  match trained with
  | .notObserved => addTrainedM origCl .notObserved d
  | .num q => addTrainedM origCl (.num q) d

/-- The u-side branch of the fold-back loop body of `EMTrainingSession._train`
(em_training_session.py, lines 264-277). -/
def foldBackU (trained : ProbValue) (d : String) (origCl : CompLevel) : CompLevel :=
  match trained with
  | .notObserved => addTrainedU origCl .notObserved d
  | .num q => addTrainedU origCl (.num q) d

/-- The fold-back applied to one original comparison level for one trained
level `cl` (em_training_session.py, lines 249-277): the m branch runs unless
m probabilities were fixed, then the u branch unless u probabilities were
fixed. -/
def foldBackOneLevel (fixM fixU : Bool) (d : String) (cl : CompLevel)
    (origCl : CompLevel) : CompLevel :=
  let afterM := if fixM then origCl else foldBackM cl.mProbability d origCl
  if fixU then afterM else foldBackU cl.uProbability d afterM

/-- Model of `Comparison._get_comparison_level_by_comparison_vector_value`
composed with an in-place update.  Modelled from the spec: the lookup method
is not under `src/`; per spec §4.3 the fold-back matches levels by
comparison-vector value, so the first level with the given value is updated. -/
def updateLevelByVectorValue (vv : ℤ) (f : CompLevel → CompLevel) :
    List CompLevel → List CompLevel
  | [] => []
  | l :: ls =>
    if l.comparisonVectorValue = vv then f l :: ls
    else l :: updateLevelByVectorValue vv f ls

/-- Model of `Settings._get_comparison_by_output_column_name` composed with an
in-place update.  Modelled from the spec: the lookup method is not under
`src/`; per spec §4.3 the fold-back matches comparisons by output column
name, so the first comparison with the given name is updated. -/
def updateCompByName (name : String) (f : ComparisonModel → ComparisonModel) :
    List ComparisonModel → List ComparisonModel
  | [] => []
  | c :: cs =>
    if c.outputColumnName = name then f c :: cs
    else c :: updateCompByName name f cs

/-- The inner fold-back loop body over the levels of one trained comparison
(em_training_session.py, lines 244-277): update the original level carrying
the trained level's comparison-vector value. -/
def levelFoldStep (fixM fixU : Bool) (d : String)
    (lvls : List CompLevel) (cl : CompLevel) : List CompLevel :=
  updateLevelByVectorValue cl.comparisonVectorValue
    (foldBackOneLevel fixM fixU d cl) lvls

/-- One iteration of the outer fold-back loop of `EMTrainingSession._train`
(em_training_session.py, lines 240-277): locate the original comparison with
the trained comparison's output column name and, for each of the trained
comparison's levels, update the original level carrying the same
comparison-vector value. -/
def foldBackComp (fixM fixU : Bool) (d : String) (cc : ComparisonModel)
    (orig : List ComparisonModel) : List ComparisonModel :=
  updateCompByName cc.outputColumnName
    (fun oc =>
      { oc with comparisonLevels :=
          (cc.comparisonLevels.foldl (levelFoldStep fixM fixU d)
            oc.comparisonLevels) })
    orig

/-- The complete fold-back of the final EM snapshot's comparisons into the
original settings object (em_training_session.py, lines 240-277). -/
def foldBackTrainedValues (fixM fixU : Bool) (d : String)
    (finalComps : List ComparisonModel) (orig : List ComparisonModel) :
    List ComparisonModel :=
  finalComps.foldl (fun acc cc => foldBackComp fixM fixU d cc acc) orig

/-- Model of `EMTrainingSession._train` (em_training_session.py, lines
199-277).  `cvvOpt` is the optional precomputed comparison-vector table (the
`cvv` parameter); when absent, `_comparison_vectors()` runs (and can raise the
double-fix `ValueError` before executing any query).  An empty
comparison-vector table raises `EMTrainingException`.  Otherwise the EM
engine (`emEngine`, an external collaborator returning the snapshot history)
runs and `history[-1]`'s comparisons are folded back into the original
settings; `history[-1]` on an empty history is a Python `IndexError`, modelled
as `none` from `List.getLast?` propagating to a `ValueError`-free failure that
cannot occur for the real engine (it always returns the initial snapshot). -/
def emTrain {α : Type} (cfg : TrainingConfig) (origComps : List ComparisonModel)
    (cvvOpt : Option (List α)) (backendRows : List α)
    (emEngine : List α → List (List ComparisonModel)) :
    Except TrainFailure (List ComparisonModel) × List TrainEvent :=
  let step1 : Except TrainFailure (List α) × List TrainEvent :=
    match cvvOpt with
    | none => comparisonVectors cfg backendRows
    | some v => (.ok v, [])
  match step1 with
  | (.error e, evs) => (.error e, evs)
  | (.ok cvv, evs) =>
    if cvv.isEmpty then
      (.error (.emTrainingException (emTrainingExceptionMessage cfg.blockingRuleSql)), evs)
    else
      let history := emEngine cvv
      match history.getLast? with
      | none => (.error (.valueError "IndexError: list index out of range"),
                 evs ++ [TrainEvent.emEngineInvoked])
      | some finalComps =>
        let trainingDesc := "EM, blocked on: " ++ cfg.blockingRuleSql
        (.ok (foldBackTrainedValues cfg.fixMProbabilities cfg.fixUProbabilities
                trainingDesc finalComps origComps),
         evs ++ [TrainEvent.emEngineInvoked])

/-! ## `splink/analyse_blocking.py`: cumulative blocking counts (match-key back-fill) -/

/-- Python's `list.insert(n, x)`: insert `x` before position `n`, appending
when `n` is at least the length (`List.take`/`List.drop` saturate exactly as
Python clamps the index). -/
def pyInsert {α : Type} (l : List α) (n : ℕ) (x : α) : List α :=
  l.take n ++ x :: l.drop n

/-- Model of the back-fill of `cumulative_comparisons_generated_by_blocking_rules`
(analyse_blocking.py, lines 141-144): when fewer match-key groups than rules
came back, compute `missing_br = [x for x in range(len(brs_as_objs)) if x not
in br_keys]` and run `br_count.insert(n, 0)` for each missing index in order.

`numRules` is `len(brs_as_objs)`; `brCount`/`brKeys` are the `row_count` and
`match_key` columns of the group-by result, ordered by
`cast(match_key as int) asc`. -/
def backfillCounts (numRules : ℕ) (brCount brKeys : List ℕ) : List ℕ :=
  if brCount.length ≠ numRules then
    ((List.range numRules).filter (fun x => x ∉ brKeys)).foldl
      (fun acc n => pyInsert acc n 0) brCount
  else brCount

/-- Model of the output loop of
`cumulative_comparisons_generated_by_blocking_rules` (analyse_blocking.py,
lines 146-173, chart fields omitted): `for row, br in zip(br_count,
brs_as_objs)` produces one `(row_count, rule)` record per rule, in input
order. -/
def cumulativeBlockingRecords (rules : List String) (brCount brKeys : List ℕ) :
    List (ℕ × String) :=
  (backfillCounts rules.length brCount brKeys).zip rules

/-! ## `splink/analyse_blocking.py`: pre-filter pair counts -/

/-- One equi-join key pair `(l_key, r_key)` of a blocking rule
(`blocking_rule._equi_join_conditions`): the two key expressions are modelled
as functions from a row to the key value they compute. -/
structure EquiJoinCondition (Row V : Type) where
  lKey : Row → V
  rKey : Row → V

/-- The key tuple `key_0, ..., key_{n-1}` selected from the left table by the
group-by query of `count_comparisons_from_blocking_rule_pre_filter_conditions_sqls`
(analyse_blocking.py, lines 242-246). -/
def lKeyTuple {Row V : Type} (conds : List (EquiJoinCondition Row V)) (r : Row) :
    List V :=
  conds.map (fun c => c.lKey r)

/-- The key tuple selected from the right table (analyse_blocking.py,
lines 252-256). -/
def rKeyTuple {Row V : Type} (conds : List (EquiJoinCondition Row V)) (r : Row) :
    List V :=
  conds.map (fun c => c.rKey r)

/-- Semantics of `select <keys>, count(*) from t group by <keys>`: one row per
distinct key tuple, carrying the number of table rows with that key tuple. -/
def groupByCount {Row K : Type} [DecidableEq K] (rows : List Row) (key : Row → K) :
    List (K × ℕ) :=
  ((rows.map key).dedup).map
    (fun k => (k, (rows.filter (fun r => key r = k)).length))

/-- Semantics of the inner join
`select *, count_l, count_r, count_l * count_r as block_count from
__splink__count_comparisons_from_blocking_l inner join
__splink__count_comparisons_from_blocking_r using (<keys>)`
(analyse_blocking.py, lines 262-267), keeping `(key, count_l, count_r)`. -/
def joinBlockCounts {K : Type} [DecidableEq K] :
    List (K × ℕ) → List (K × ℕ) → List (K × ℕ × ℕ)
  | [], _ => []
  | a :: as, gr =>
    ((gr.filter (fun b => b.1 = a.1)).map (fun b => (a.1, a.2, b.2))) ++
      joinBlockCounts as gr

/-- Semantics of `select sum(block_count) from __splink__block_counts`
(analyse_blocking.py, lines 271-274). -/
def totalOfBlockCounts {K : Type} (joined : List (K × ℕ × ℕ)) : ℕ :=
  (joined.map (fun e => e.2.1 * e.2.2)).sum

/-- All `(left row, right row)` pairs of two tables — the cross join a blocking
rule's equality conditions filter. -/
def allPairs {Row : Type} : List Row → List Row → List (Row × Row)
  | [], _ => []
  | l :: ls, rs => rs.map (fun r => (l, r)) ++ allPairs ls rs

/-- Model of `count_comparisons_from_blocking_rule_pre_filter_conditions`
(analyse_blocking.py, lines 181-294): executes the staged queries produced by
`count_comparisons_from_blocking_rule_pre_filter_conditions_sqls` and reads
off `count_of_pairwise_comparisons_generated`.

With no equi-join condition the count is `(SELECT COUNT(*) FROM l) * (SELECT
COUNT(*) FROM r)` over the two raw input datasets in two-dataset link-only
mode, and `count(*) * count(*)` over `__splink__df_concat` otherwise (lines
222-240).  With equi-join conditions both sides are grouped by their key
tuples, inner-joined on the tuple, and `count_l * count_r` is summed (lines
242-278); in two-dataset link-only mode the sides are the two raw datasets,
otherwise both sides are the concatenated table (lines 212-220). -/
def countComparisonsPreFilter {Row V : Type} [DecidableEq V]
    (twoDatasetLinkOnly : Bool) (concatTable tableL tableR : List Row)
    (conds : List (EquiJoinCondition Row V)) : ℕ :=
  let inputL := if twoDatasetLinkOnly then tableL else concatTable
  let inputR := if twoDatasetLinkOnly then tableR else concatTable
  if conds.isEmpty then
    if twoDatasetLinkOnly then inputL.length * inputR.length
    else concatTable.length * concatTable.length
  else
    totalOfBlockCounts
      (joinBlockCounts (groupByCount inputL (lKeyTuple conds))
        (groupByCount inputR (rKeyTuple conds)))

/-! ## `splink/estimate_u.py`: SQL staging trace of `estimate_u_values` -/

/-- Which linker object a call is made on inside `estimate_u_values`:
the caller's original `linker`, or the deep-copied `training_linker`. -/
inductive LinkerTarget where
  | original
  | trainingCopy
deriving DecidableEq

/-- The `_enqueue_sql` calls of `estimate_u_values` in source order
(estimate_u.py, lines 155-157, 205-206, 225-237), each recorded with the
linker object it stages SQL on and the staged output table name.  The
`__splink__df_concat_sampled_row_pairs` stage exists only on the link-only
sampling path (`linkOnly` with `samplePairsBranch`).  Line 237 is
`linker._enqueue_sql(sql, "__splink__m_u_counts")` — the caller's original
linker, not the training copy. -/
def estimateUEnqueueTrace (linkOnly samplePairsBranch : Bool) :
    List (LinkerTarget × String) :=
  (if linkOnly && samplePairsBranch then
    [(LinkerTarget.trainingCopy, "__splink__df_concat_sampled_row_pairs")]
   else []) ++
  [(LinkerTarget.trainingCopy, "__splink__df_blocked"),
   (LinkerTarget.trainingCopy, "__splink__df_comparison_vectors"),
   (LinkerTarget.trainingCopy, "__splink__df_predict"),
   (LinkerTarget.original, "__splink__m_u_counts")]

/-- Model of `Settings._get_comparison_by_output_column_name` as a lookup.
Modelled from the spec: the method is not under `src/`; per spec §4.3 the
fold-back matches comparisons by output column name (first match). -/
def findCompByName (comps : List ComparisonModel) (name : String) :
    Option ComparisonModel :=
  comps.find? (fun c => c.outputColumnName = name)

/-- Model of `Comparison._get_comparison_level_by_comparison_vector_value` as
a lookup.  Modelled from the spec: the method is not under `src/`; per spec
§4.3 the fold-back matches levels by comparison-vector value (first match). -/
def findLevelByVectorValue (lvls : List CompLevel) (vv : ℤ) : Option CompLevel :=
  lvls.find? (fun l => l.comparisonVectorValue = vv)

/-- A concrete equi-join condition (equality of parities) used to instantiate
witnesses. -/
def parityCondition : EquiJoinCondition ℕ ℕ :=
  ⟨fun r => r % 2, fun r => r % 2⟩

/-- A concrete original model used to instantiate the fold-back witness. -/
def foldbackWitnessOrig : List ComparisonModel :=
  [⟨"surname", [⟨1, ProbValue.num 1, ProbValue.num 1, [], []⟩,
    ⟨2, ProbValue.num 1, ProbValue.num 1, [], []⟩]⟩]

/-- A concrete final EM snapshot used to instantiate the fold-back witness:
the level with vector value 1 was never observed on the m side, the level
with vector value 2 never observed on the u side. -/
def foldbackWitnessFinal : List ComparisonModel :=
  [⟨"surname", [⟨1, ProbValue.notObserved, ProbValue.num 3, [], []⟩,
    ⟨2, ProbValue.num 7, ProbValue.notObserved, [], []⟩]⟩]

/-! ## Theorems -/

/-- C1: For every EMTrainingSession created with `fix_m_probabilities = true`
and `fix_u_probabilities = true`, training always fails with a configuration
error (`ValueError`) before any data is read: the error is raised fast, and no
blocking or comparison-vector query is executed first (the event trace is
empty). -/
theorem emTrain_double_fix_fails_before_any_query {α : Type} (cfg : TrainingConfig)
    (origComps : List ComparisonModel) (backendRows : List α)
    (emEngine : List α → List (List ComparisonModel))
    (hm : cfg.fixMProbabilities = true) (hu : cfg.fixUProbabilities = true) :
    emTrain cfg origComps none backendRows emEngine =
      (.error (.valueError "Can't train model if you fix both m and u probabilites"),
       []) := by
  simp [emTrain, comparisonVectors, trainingLogMessage, hm, hu]

/-- Witness for `emTrain_double_fix_fails_before_any_query` at a concrete
session configuration. -/
theorem emTrain_double_fix_fails_before_any_query_witness :
    (⟨true, true, false, "l.surname = r.surname"⟩ : TrainingConfig).fixMProbabilities = true
    ∧ emTrain (α := ℕ) ⟨true, true, false, "l.surname = r.surname"⟩ [] none []
        (fun _ => []) =
      (.error (.valueError "Can't train model if you fix both m and u probabilites"),
       []) :=
  ⟨rfl, emTrain_double_fix_fails_before_any_query _ _ _ _ rfl rfl⟩

/-- C2: For every EMTrainingSession (with a valid fix configuration) whose
training blocking rule yields zero candidate pairs, `_train` raises a
terminal `EMTrainingException` whose message contains the literal SQL text of
the blocking rule, and the EM engine is never invoked. -/
theorem emTrain_zero_pairs_terminal_exception {α : Type} (cfg : TrainingConfig)
    (origComps : List ComparisonModel)
    (emEngine : List α → List (List ComparisonModel))
    (hfix : cfg.fixMProbabilities = false ∨ cfg.fixUProbabilities = false) :
    (emTrain cfg origComps none ([] : List α) emEngine).1 =
      .error (.emTrainingException (emTrainingExceptionMessage cfg.blockingRuleSql))
    ∧ cfg.blockingRuleSql.toList <:+:
        (emTrainingExceptionMessage cfg.blockingRuleSql).toList
    ∧ TrainEvent.emEngineInvoked ∉ (emTrain cfg origComps none ([] : List α) emEngine).2 := by
  have hlog : trainingLogMessage cfg = .ok () := by
    unfold trainingLogMessage
    rcases hfix with h | h <;> simp [h]
  refine ⟨?_, ?_, ?_⟩
  · simp [emTrain, comparisonVectors, hlog]
  · refine ⟨emTrainingMsgSeg1.toList,
      (emTrainingMsgSeg2 ++ cfg.blockingRuleSql ++ emTrainingMsgSeg3).toList, ?_⟩
    simp [emTrainingExceptionMessage, String.toList, String.data_append,
      List.append_assoc]
  · simp [emTrain, comparisonVectors, hlog]

/-- Witness for `emTrain_zero_pairs_terminal_exception`: a concrete session
blocking on `1=0` whose comparison-vector table is empty. -/
theorem emTrain_zero_pairs_terminal_exception_witness :
    (⟨false, false, false, "1=0"⟩ : TrainingConfig).fixMProbabilities = false
    ∧ ((emTrain (α := ℕ) ⟨false, false, false, "1=0"⟩ [] none [] (fun _ => [])).1 =
        .error (.emTrainingException (emTrainingExceptionMessage "1=0"))
      ∧ "1=0".toList <:+: (emTrainingExceptionMessage "1=0").toList
      ∧ TrainEvent.emEngineInvoked ∉
          (emTrain (α := ℕ) ⟨false, false, false, "1=0"⟩ [] none [] (fun _ => [])).2) :=
  ⟨rfl, emTrain_zero_pairs_terminal_exception _ _ _ (Or.inl rfl)⟩

/-- C10 (code bug): inside `estimate_u_values`, all intermediate SQL is staged
on the deep-copied training linker except the `compute_new_parameters_sql`
stage, which line 237 (`linker._enqueue_sql(sql, "__splink__m_u_counts")`)
stages on the caller's original linker — contradicting the specification that
no intermediate SQL is staged on the caller's original linker.  The trace of
`_enqueue_sql` calls, filtered to the original linker, is exactly that one
stage, in every mode. -/
theorem estimateU_stages_m_u_counts_on_original_linker :
    ∀ linkOnly samplePairsBranch : Bool,
      (estimateUEnqueueTrace linkOnly samplePairsBranch).filter
          (fun e => e.1 = LinkerTarget.original) =
        [(LinkerTarget.original, "__splink__m_u_counts")] := by
  decide

/-- C6: With no equi-join condition, the pre-filter count is the raw product
of table sizes — the two input datasets' literal row counts in two-dataset
link-only mode, and the concatenated table's row count squared otherwise,
with no `n(n-1)/2` dedupe correction. -/
theorem preFilterCount_no_equi_join_raw_product {Row V : Type} [DecidableEq V]
    (concatTable tableL tableR : List Row) :
    countComparisonsPreFilter true concatTable tableL tableR
        ([] : List (EquiJoinCondition Row V)) = tableL.length * tableR.length
    ∧ countComparisonsPreFilter false concatTable tableL tableR
        ([] : List (EquiJoinCondition Row V)) =
        concatTable.length * concatTable.length := by
  constructor <;> rfl

/-- C7: In dedupe or link-and-dedupe u-estimation with target comparison count
`T` and total row count `N`, the derived sample row count
`n = 0.5*(sqrt(8T+1)+1)` satisfies `n(n-1)/2 = T` exactly in real arithmetic;
the sample size is capped at `N`; and the sampling proportion `n/N` is capped
at `1.0`, a raw proportion `≥ 1.0` yielding exactly `1.0` (all rows, no
sampling). -/
theorem dedupe_sampling_inversion (targetRows countRows : ℕ) :
    numTargetRowsToRowsToSample targetRows *
        (numTargetRowsToRowsToSample targetRows - 1) / 2 = targetRows
    ∧ dedupeSampleSize targetRows countRows ≤ countRows
    ∧ dedupeSampleProportion targetRows countRows ≤ 1
    ∧ (1 ≤ numTargetRowsToRowsToSample targetRows / countRows →
        dedupeSampleProportion targetRows countRows = 1) := by
  have hnn : (0 : ℝ) ≤ 8 * (targetRows : ℝ) + 1 := by positivity
  have hs : Real.sqrt (8 * (targetRows : ℝ) + 1) ^ 2 = 8 * (targetRows : ℝ) + 1 :=
    Real.sq_sqrt hnn
  refine ⟨?_, ?_, ?_, ?_⟩
  · unfold numTargetRowsToRowsToSample
    nlinarith [hs]
  · unfold dedupeSampleSize
    dsimp only
    split
    · exact le_refl _
    · next h => exact le_of_not_lt h
  · unfold dedupeSampleProportion
    dsimp only
    simp only [show (1.0 : ℝ) = 1 by norm_num]
    split
    · exact le_refl _
    · next h => exact le_of_not_le h
  · intro h
    unfold dedupeSampleProportion
    dsimp only
    simp only [show (1.0 : ℝ) = 1 by norm_num]
    split
    · rfl
    · next hcon => exact absurd h hcon

/-- Witness for the conditional conjunct of `dedupe_sampling_inversion`:
with target `3` the raw sample size is `3`, so against `2` rows the raw
proportion is at least `1` and the capped proportion is exactly `1`. -/
theorem dedupe_sampling_inversion_witness :
    dedupeSampleProportion 3 2 = 1 := by
  have hval : numTargetRowsToRowsToSample (3 : ℕ) = 3 := by
    unfold numTargetRowsToRowsToSample
    rw [show 8 * ((3 : ℕ) : ℝ) + 1 = 5 ^ 2 by norm_num, Real.sqrt_sq (by norm_num)]
    norm_num
  have h1 : (1 : ℝ) ≤ numTargetRowsToRowsToSample (3 : ℕ) / ((2 : ℕ) : ℝ) := by
    rw [hval]; norm_num
  exact (dedupe_sampling_inversion 3 2).2.2.2 h1

/-- Every pair surviving the distinct-scan is one of the draws, and its key is
not among the already-seen keys. -/
lemma sampledRowPairsAux_mem {p : RowPairDraw} :
    ∀ {draws : List RowPairDraw} {seen : List (ℕ × ℕ)},
      p ∈ sampledRowPairsAux draws seen → p ∈ draws ∧ (p.rowL, p.rowR) ∉ seen := by
  intro draws
  induction draws with
  | nil => intro seen h; simp [sampledRowPairsAux] at h
  | cons q rest ih =>
    intro seen h
    unfold sampledRowPairsAux at h
    by_cases hq : (q.rowL, q.rowR) ∈ seen
    · rw [if_pos hq] at h
      obtain ⟨h1, h2⟩ := ih h
      exact ⟨List.mem_cons_of_mem _ h1, h2⟩
    · rw [if_neg hq] at h
      rcases List.mem_cons.mp h with h | h
      · subst h
        exact ⟨List.mem_cons_self _ _, hq⟩
      · obtain ⟨h1, h2⟩ := ih h
        exact ⟨List.mem_cons_of_mem _ h1,
          fun hs => h2 (List.mem_cons_of_mem _ hs)⟩

/-- The `(row_l, row_r)` keys surviving the distinct-scan are pairwise
distinct. -/
lemma sampledRowPairsAux_keys_nodup :
    ∀ (draws : List RowPairDraw) (seen : List (ℕ × ℕ)),
      ((sampledRowPairsAux draws seen).map (fun p => (p.rowL, p.rowR))).Nodup := by
  intro draws
  induction draws with
  | nil => intro seen; simp [sampledRowPairsAux]
  | cons q rest ih =>
    intro seen
    unfold sampledRowPairsAux
    by_cases hq : (q.rowL, q.rowR) ∈ seen
    · rw [if_pos hq]
      exact ih seen
    · rw [if_neg hq]
      simp only [List.map_cons, List.nodup_cons]
      refine ⟨?_, ih _⟩
      intro hmem
      obtain ⟨p, hp, hkey⟩ := List.mem_map.mp hmem
      exact (sampledRowPairsAux_mem hp).2 (by rw [hkey]; exact List.mem_cons_self _ _)

/-- C8: In link-only u-estimation with target `T` and dataset sizes
`count_l`, `count_r` (`N = count_l * count_r`): if `T ≥ N` sampling is skipped
(full cross); otherwise the number of index pairs drawn with replacement is
`ceil(log10(1-T/N)/log10(1-1/N))`, which equals the claim's
`ceil(log(1-T/N)/log(1-1/N))`, whose pre-ceiling exponent solves the
expected-unique-draws equation `N*(1-(1-1/N)^k) = T`; and exact duplicate
`(row_l, row_r)` pairs are removed before materialization. -/
theorem linkOnly_sampling_inversion (countL countR targetRows totalRows : ℕ)
    (hN : totalRows = countL * countR)
    (hT : 0 < targetRows) (hTN : targetRows < totalRows) :
    (∀ t cL cR : ℕ, cL * cR ≤ t → linkOnlySamplingPlan cL cR t = .fullCross)
    ∧ linkOnlySamplingPlan countL countR targetRows =
        .samplePairs (numTargetRowsToPairsToSample totalRows targetRows)
    ∧ numTargetRowsToPairsToSample totalRows targetRows =
        ⌈Real.log (1 - (targetRows : ℝ) / (totalRows : ℝ)) /
          Real.log (1 - 1 / (totalRows : ℝ))⌉
    ∧ (totalRows : ℝ) *
        (1 - (1 - 1 / (totalRows : ℝ)) ^
            (Real.log (1 - (targetRows : ℝ) / (totalRows : ℝ)) /
              Real.log (1 - 1 / (totalRows : ℝ)))) = targetRows
    ∧ (∀ draws : List RowPairDraw,
        ((sampledRowPairs draws).map (fun p => (p.rowL, p.rowR))).Nodup
        ∧ ∀ p ∈ sampledRowPairs draws, p ∈ draws) := by
  have hn1 : (1 : ℝ) < (totalRows : ℝ) := by
    have : 2 ≤ totalRows := by omega
    exact_mod_cast lt_of_lt_of_le one_lt_two (by exact_mod_cast this)
  have hn0 : (0 : ℝ) < (totalRows : ℝ) := lt_trans one_pos hn1
  have hb_pos : (0 : ℝ) < 1 - 1 / (totalRows : ℝ) := by
    have h1 : 1 / (totalRows : ℝ) < 1 := (div_lt_one hn0).mpr hn1
    linarith
  have hb_lt1 : 1 - 1 / (totalRows : ℝ) < 1 := by
    have h1 : 0 < 1 / (totalRows : ℝ) := by positivity
    linarith
  have hlogb_neg : Real.log (1 - 1 / (totalRows : ℝ)) < 0 :=
    Real.log_neg hb_pos hb_lt1
  have hlogb_ne : Real.log (1 - 1 / (totalRows : ℝ)) ≠ 0 := ne_of_lt hlogb_neg
  have ha_pos : (0 : ℝ) < 1 - (targetRows : ℝ) / (totalRows : ℝ) := by
    have h1 : (targetRows : ℝ) / (totalRows : ℝ) < 1 :=
      (div_lt_one hn0).mpr (by exact_mod_cast hTN)
    linarith
  refine ⟨?_, ?_, ?_, ?_, ?_⟩
  · intro t cL cR h
    unfold linkOnlySamplingPlan
    dsimp only
    rw [if_pos h]
  · unfold linkOnlySamplingPlan
    dsimp only
    rw [if_neg (by omega), hN]
  · unfold numTargetRowsToPairsToSample
    congr 1
    simp only [Real.logb]
    rw [div_div_div_comm,
      div_self (ne_of_gt (Real.log_pos (by norm_num : (1 : ℝ) < 10))), div_one]
  · have hx : (1 - 1 / (totalRows : ℝ)) ^
        (Real.log (1 - (targetRows : ℝ) / (totalRows : ℝ)) /
          Real.log (1 - 1 / (totalRows : ℝ))) =
        1 - (targetRows : ℝ) / (totalRows : ℝ) := by
      rw [Real.rpow_def_of_pos hb_pos, mul_comm, div_mul_cancel₀ _ hlogb_ne]
      exact Real.exp_log ha_pos
    rw [hx, sub_sub_cancel, mul_comm, div_mul_cancel₀ _ (ne_of_gt hn0)]
  · intro draws
    exact ⟨sampledRowPairsAux_keys_nodup draws [],
      fun p hp => (sampledRowPairsAux_mem hp).1⟩

/-- Witness for `linkOnly_sampling_inversion` at `count_l = count_r = 2`,
target `2` (so `N = 4 > 2`): the sampling branch is taken with the
pairs-to-sample formula. -/
theorem linkOnly_sampling_inversion_witness :
    0 < 2 ∧ 2 < 4 ∧
      linkOnlySamplingPlan 2 2 2 =
        LinkOnlySampling.samplePairs (numTargetRowsToPairsToSample 4 2) :=
  ⟨by decide, by decide,
    (linkOnly_sampling_inversion 2 2 2 4 rfl (by decide) (by decide)).2.1⟩

/-- C3 (counterexample): the convergence test of `Params.is_converged` does
not include λ.  With the m/u probability value unchanged but λ (stored under
`"proportion_of_matches"`, whose flattened key does not contain
`"_probability"`) moving from `0.1` to `0.9` against a threshold of `0.01`,
`is_converged` still returns `True`, although the claimed condition — every
non-fixed parameter among m, u and λ changed by less than the threshold — is
violated. -/
theorem isConverged_lambda_excluded_counterexample :
    isConverged
        [("proportion_of_matches", (9 : ℚ)/10),
         ("pi_gamma_name_prob_dist_match_level_0_probability", (1 : ℚ)/2)]
        [("proportion_of_matches", (1 : ℚ)/10),
         ("pi_gamma_name_prob_dist_match_level_0_probability", (1 : ℚ)/2)]
        (1/100) = some true
    ∧ ¬ (|(9 : ℚ)/10 - (1 : ℚ)/10| < 1/100) := by
  constructor
  · have hk1 : keyIsProbabilityKey "proportion_of_matches" = false := by decide
    have hk2 : keyIsProbabilityKey
        "pi_gamma_name_prob_dist_match_level_0_probability" = true := by decide
    simp only [isConverged, List.filter_cons, List.filter_nil, hk1, hk2,
      Bool.false_eq_true, if_false, if_true, allParamsConverged,
      List.lookup, beq_self_eq_true, Option.some.injEq, Bool.and_true,
      decide_eq_true_eq]
    norm_num
  · rw [show (9 : ℚ)/10 - (1 : ℚ)/10 = 4/5 by norm_num,
      abs_of_pos (by norm_num : (0 : ℚ) < 4/5)]
    norm_num

/-- Whether `allParamsConverged` returns `some true`, characterised:
every retained key must be present in the previous snapshot with absolute
difference strictly below the threshold. -/
lemma allParamsConverged_eq_some_iff (pOld : List (String × ℚ)) (threshold : ℚ) :
    ∀ (pNew : List (String × ℚ)) (b : Bool),
      allParamsConverged pNew pOld threshold = some b →
      (b = true ↔ ∀ kv ∈ pNew, ∃ q, pOld.lookup kv.1 = some q ∧
        |kv.2 - q| < threshold) := by
  intro pNew
  induction pNew with
  | nil =>
    intro b h
    simp only [allParamsConverged, Option.some.injEq] at h
    subst h
    simp
  | cons kv rest ih =>
    intro b h
    unfold allParamsConverged at h
    cases hl : List.lookup kv.1 pOld with
    | none => rw [hl] at h; exact absurd h (by simp)
    | some oldVal =>
      rw [hl] at h
      cases hr : allParamsConverged rest pOld threshold with
      | none => rw [hr] at h; exact absurd h (by simp)
      | some br =>
        rw [hr] at h
        simp only [Option.some.injEq] at h
        subst h
        rw [List.forall_mem_cons, Bool.and_eq_true, decide_eq_true_eq]
        constructor
        · rintro ⟨hc, hbr⟩
          exact ⟨⟨oldVal, hl, hc⟩, (ih br hr).mp hbr⟩
        · rintro ⟨⟨q, hq, hcq⟩, hrest⟩
          rw [hl] at hq
          injection hq with e
          subst e
          exact ⟨hcq, (ih br hr).mpr hrest⟩

/-- C3 (amended): `Params.is_converged` returns `True` exactly when every
flattened parameter whose key contains `"_probability"` — that is, every m
and u probability, but not λ, whose key (`"proportion_of_matches"`) lacks
that substring — changed in absolute value by strictly less than the
configured threshold between the current and previous snapshots. -/
theorem isConverged_iff_probability_keys (pLatest pPrevious : List (String × ℚ))
    (threshold : ℚ) (b : Bool)
    (h : isConverged pLatest pPrevious threshold = some b) :
    b = true ↔ ∀ kv ∈ pLatest.filter (fun kv => keyIsProbabilityKey kv.1),
      ∃ q, (pPrevious.filter (fun kv => keyIsProbabilityKey kv.1)).lookup kv.1 =
            some q
        ∧ |kv.2 - q| < threshold := by
  unfold isConverged at h
  exact allParamsConverged_eq_some_iff _ _ _ _ h

/-- Witness for `isConverged_iff_probability_keys` at a concrete snapshot pair
on which the convergence test evaluates to `some true`. -/
theorem isConverged_iff_probability_keys_witness :
    (true = true ↔ ∀ kv ∈ ([(("pi_a_probability" : String), (1 : ℚ)/2)].filter
        (fun kv => keyIsProbabilityKey kv.1)),
      ∃ q, (([(("pi_a_probability" : String), (1 : ℚ)/2)]).filter
              (fun kv => keyIsProbabilityKey kv.1)).lookup kv.1 = some q
        ∧ |kv.2 - q| < 1/100) :=
  isConverged_iff_probability_keys _ _ _ _ (by
    have hk : keyIsProbabilityKey "pi_a_probability" = true := by decide
    simp only [isConverged, List.filter_cons, List.filter_nil, hk, if_true,
      allParamsConverged, List.lookup, beq_self_eq_true, Option.some.injEq,
      Bool.and_true, decide_eq_true_eq]
    norm_num)

/-- Sums of pointwise-added maps split. -/
lemma sum_map_add {α : Type} (l : List α) (f g : α → ℕ) :
    (l.map (fun x => f x + g x)).sum = (l.map f).sum + (l.map g).sum := by
  induction l with
  | nil => rfl
  | cons a t ih => simp [ih]; omega

/-- Summing `if x = k then g k else 0` over a duplicate-free list containing
`x` yields `g x`. -/
lemma sum_map_ite_eq {K : Type} [DecidableEq K] (g : K → ℕ) :
    ∀ (D : List K) (x : K), D.Nodup → x ∈ D →
      (D.map (fun k => if x = k then g k else 0)).sum = g x := by
  intro D
  induction D with
  | nil => intro x _ hx; simp at hx
  | cons d t ih =>
    intro x hnd hx
    obtain ⟨hd, ht⟩ := List.nodup_cons.mp hnd
    rcases List.mem_cons.mp hx with rfl | hx
    · have hz : (t.map (fun k => if x = k then g k else 0)).sum = 0 := by
        apply List.sum_eq_zero
        intro y hy
        obtain ⟨k, hk, hky⟩ := List.mem_map.mp hy
        have hxk : ¬ x = k := fun he => hd (by rw [he]; exact hk)
        rw [if_neg hxk] at hky
        exact hky.symm
      simp [hz]
    · have hxd : ¬ x = d := fun he => hd (by rw [← he]; exact hx)
      simp only [List.map_cons, List.sum_cons, if_neg hxd, Nat.zero_add]
      exact ih x ht hx

/-- If a key value never occurs, its count is zero. -/
lemma length_filter_key_eq_zero {Row K : Type} [DecidableEq K] (key : Row → K)
    (rows : List Row) (k : K) (h : k ∉ rows.map key) :
    (rows.filter (fun r => key r = k)).length = 0 := by
  rw [List.length_eq_zero, List.filter_eq_nil_iff]
  intro r hr
  simp only [decide_eq_true_eq]
  exact fun hk => h (List.mem_map.mpr ⟨r, hr, hk⟩)

/-- Filtering a duplicate-free list for one value yields that value as a
singleton when present, and nothing otherwise. -/
lemma nodup_filter_eq_singleton {K : Type} [DecidableEq K] :
    ∀ (D : List K), D.Nodup → ∀ k, D.filter (fun x => x = k) =
      if k ∈ D then [k] else [] := by
  intro D
  induction D with
  | nil => intro _ k; simp
  | cons d t ih =>
    intro hnd k
    obtain ⟨hd, ht⟩ := List.nodup_cons.mp hnd
    rw [List.filter_cons]
    by_cases hdk : d = k
    · subst hdk
      simp only [decide_eq_true_eq, if_pos rfl, List.mem_cons, true_or, if_true]
      rw [ih ht d, if_neg hd]
    · have hk : (decide (d = k)) = false := by simp [hdk]
      rw [hk]
      simp only [Bool.false_eq_true, if_false, ih ht k, List.mem_cons]
      by_cases hkt : k ∈ t
      · rw [if_pos hkt, if_pos (Or.inr hkt)]
      · have hno : ¬ (k = d ∨ k ∈ t) := by
          rintro (he | hm)
          · exact hdk he.symm
          · exact hkt hm
        rw [if_neg hkt, if_neg hno]

/-- Filtering the group-by result for one key tuple yields the key with its
count when the key occurs in the table, and nothing otherwise. -/
lemma groupByCount_filter_key {Row K : Type} [DecidableEq K] (rows : List Row)
    (key : Row → K) (k : K) :
    (groupByCount rows key).filter (fun b => b.1 = k) =
      if k ∈ rows.map key
      then [(k, (rows.filter (fun r => key r = k)).length)] else [] := by
  unfold groupByCount
  rw [List.filter_map]
  have hcomp :
      ((fun b : K × ℕ => decide (b.1 = k)) ∘
        (fun kk => (kk, (rows.filter (fun r => key r = kk)).length))) =
      fun kk => decide (kk = k) := rfl
  rw [hcomp, nodup_filter_eq_singleton _ (List.nodup_dedup _) k]
  by_cases hk : k ∈ (rows.map key).dedup
  · rw [if_pos hk, if_pos (List.mem_dedup.mp hk)]
    rfl
  · rw [if_neg hk, if_neg (fun hm => hk (List.mem_dedup.mpr hm))]
    rfl

/-- The sum of `block_count` over the inner join equals the nested sum over
the left groups of the matching right-group products. -/
lemma totalOfBlockCounts_join {K : Type} [DecidableEq K] :
    ∀ gl gr : List (K × ℕ),
      totalOfBlockCounts (joinBlockCounts gl gr) =
        (gl.map (fun a =>
          ((gr.filter (fun b => b.1 = a.1)).map (fun b => a.2 * b.2)).sum)).sum := by
  intro gl
  induction gl with
  | nil => intro gr; rfl
  | cons a t ih =>
    intro gr
    unfold joinBlockCounts totalOfBlockCounts
    rw [List.map_append, List.sum_append, List.map_map]
    unfold totalOfBlockCounts at ih
    rw [ih gr, List.map_cons, List.sum_cons]
    rfl

/-- Summing `count(k) * g(k)` over the distinct keys of a table equals summing
`g(key r)` over the table's rows. -/
lemma sum_dedup_count_mul {Row K : Type} [DecidableEq K] (key : Row → K)
    (g : K → ℕ) :
    ∀ rows : List Row,
      (((rows.map key).dedup).map
        (fun k => (rows.filter (fun r => key r = k)).length * g k)).sum =
      (rows.map (fun r => g (key r))).sum := by
  intro rows
  induction rows with
  | nil => rfl
  | cons a t ih =>
    have hlen : ∀ k, ((a :: t).filter (fun r => key r = k)).length =
        (if key a = k then 1 else 0) + (t.filter (fun r => key r = k)).length := by
      intro k
      rw [List.filter_cons]
      by_cases hak : key a = k
      · rw [if_pos (by simp [hak]), if_pos hak, List.length_cons]
        omega
      · rw [if_neg (by simp [hak]), if_neg hak, Nat.zero_add]
    by_cases hmem : key a ∈ t.map key
    · rw [List.map_cons, List.dedup_cons_of_mem hmem]
      have hfun : ∀ k ∈ (t.map key).dedup,
          ((a :: t).filter (fun r => key r = k)).length * g k =
            (if key a = k then g k else 0) +
              (t.filter (fun r => key r = k)).length * g k := by
        intro k _
        rw [hlen k]
        by_cases hak : key a = k
        · simp [hak, Nat.add_mul]
        · simp [hak]
      rw [List.map_congr_left hfun, sum_map_add,
        sum_map_ite_eq g _ (key a) (List.nodup_dedup _) (List.mem_dedup.mpr hmem),
        ih]
      simp
    · rw [List.map_cons, List.dedup_cons_of_not_mem hmem]
      simp only [List.map_cons, List.sum_cons]
      have h1 : ((a :: t).filter (fun r => key r = key a)).length = 1 := by
        rw [hlen (key a), if_pos rfl,
          length_filter_key_eq_zero key t (key a) hmem]
      have hfun : ∀ k ∈ (t.map key).dedup,
          ((a :: t).filter (fun r => key r = k)).length * g k =
            (t.filter (fun r => key r = k)).length * g k := by
        intro k hk
        have hak : key a ≠ k := fun he => hmem (he ▸ List.mem_dedup.mp hk)
        rw [hlen k, if_neg hak, Nat.zero_add]
      rw [h1, List.map_congr_left hfun, ih, Nat.one_mul]

/-- The number of filtered cross-join pairs is the row-wise sum of matching
right rows. -/
lemma length_filter_allPairs {Row : Type} (R : List Row) (P : Row × Row → Bool) :
    ∀ L : List Row,
      ((allPairs L R).filter P).length =
        (L.map (fun l => (R.filter (fun r => P (l, r))).length)).sum := by
  intro L
  induction L with
  | nil => rfl
  | cons l t ih =>
    unfold allPairs
    rw [List.filter_append, List.length_append, ih, List.filter_map]
    have hcomp : (P ∘ fun r => (l, r)) = fun r => P (l, r) := rfl
    rw [hcomp, List.length_map]
    simp

/-- The group-by / inner-join / sum pipeline computes exactly the number of
cross-join pairs whose key tuples agree. -/
lemma totalOfBlockCounts_group_join {Row K : Type} [DecidableEq K]
    (L R : List Row) (kl kr : Row → K) :
    totalOfBlockCounts (joinBlockCounts (groupByCount L kl) (groupByCount R kr)) =
      ((allPairs L R).filter (fun p => kl p.1 = kr p.2)).length := by
  rw [totalOfBlockCounts_join, length_filter_allPairs]
  have hstep1 :
      (List.map (fun a : K × ℕ =>
          (List.map (fun b => a.2 * b.2)
            (List.filter (fun b => b.1 = a.1) (groupByCount R kr))).sum)
        (groupByCount L kl)).sum =
      (List.map (fun k =>
          (L.filter (fun r => kl r = k)).length *
            (R.filter (fun r => kr r = k)).length)
        ((L.map kl).dedup)).sum := by
    unfold groupByCount
    rw [List.map_map]
    apply congrArg
    apply List.map_congr_left
    intro k hk
    show (List.map (fun b => (L.filter (fun r => kl r = k)).length * b.2)
        (List.filter (fun b => b.1 = k) (groupByCount R kr))).sum = _
    rw [groupByCount_filter_key R kr k]
    by_cases hmem : k ∈ R.map kr
    · rw [if_pos hmem]
      simp
    · rw [if_neg hmem, length_filter_key_eq_zero kr R k hmem]
      simp
  rw [hstep1, sum_dedup_count_mul kl
    (fun k => (R.filter (fun r => kr r = k)).length) L]
  apply congrArg
  apply List.map_congr_left
  intro l _
  apply congrArg
  apply List.filter_congr
  intro r _
  simp only [decide_eq_decide]
  exact eq_comm

/-- The key tuples of a pair agree exactly when every equality condition of
the rule holds on that pair. -/
lemma keyTuple_eq_iff {Row V : Type} (conds : List (EquiJoinCondition Row V))
    (l r : Row) :
    lKeyTuple conds l = rKeyTuple conds r ↔ ∀ c ∈ conds, c.lKey l = c.rKey r := by
  unfold lKeyTuple rKeyTuple
  induction conds with
  | nil => simp
  | cons c cs ih => simp [ih]

/-- C5: For every blocking rule with at least one equi-join key pair, the
pre-filter count — the sum over key tuples present in both group-by results of
`count_l * count_r` — equals the exact number of `(left, right)` row pairs
satisfying all of the rule's equality conditions. -/
theorem preFilterCount_equi_join_exact {Row V : Type} [DecidableEq V]
    (twoDatasetLinkOnly : Bool) (concatTable tableL tableR : List Row)
    (conds : List (EquiJoinCondition Row V)) (hconds : conds ≠ []) :
    countComparisonsPreFilter twoDatasetLinkOnly concatTable tableL tableR conds =
      ((allPairs (if twoDatasetLinkOnly then tableL else concatTable)
          (if twoDatasetLinkOnly then tableR else concatTable)).filter
        (fun p => decide (∀ c ∈ conds, c.lKey p.1 = c.rKey p.2))).length := by
  unfold countComparisonsPreFilter
  dsimp only
  rw [if_neg (by simpa [List.isEmpty_iff] using hconds)]
  rw [totalOfBlockCounts_group_join]
  apply congrArg
  apply List.filter_congr
  intro p _
  simp only [decide_eq_decide]
  exact keyTuple_eq_iff conds p.1 p.2

/-- Witness for `preFilterCount_equi_join_exact`: a single parity equi-join
condition over a four-row concatenated table in dedupe mode. -/
theorem preFilterCount_equi_join_exact_witness :
    countComparisonsPreFilter false [0, 1, 2, 3] [] [] [parityCondition] =
      ((allPairs [0, 1, 2, 3] [0, 1, 2, 3]).filter
        (fun p : ℕ × ℕ => decide (∀ c ∈ [parityCondition],
          c.lKey p.1 = c.rKey p.2))).length :=
  preFilterCount_equi_join_exact false [0, 1, 2, 3] [] [] _
    (List.cons_ne_nil _ _)

/-- `pyInsert` on a cons with a positive index skips the head. -/
lemma pyInsert_cons {α : Type} (a : α) (l : List α) (n : ℕ) (x : α) :
    pyInsert (a :: l) (n + 1) x = a :: pyInsert l n x := by
  simp [pyInsert]

/-- Folding zero-insertions at successor positions over a cons leaves the head
in place and folds the shifted insertions over the tail. -/
lemma foldl_pyInsert_map_succ :
    ∀ (ms : List ℕ) (a : ℕ) (l : List ℕ),
      (ms.map Nat.succ).foldl (fun acc n => pyInsert acc n 0) (a :: l) =
        a :: ms.foldl (fun acc n => pyInsert acc n 0) l := by
  intro ms
  induction ms with
  | nil => intro a l; rfl
  | cons m t ih =>
    intro a l
    simp only [List.map_cons, List.foldl_cons, pyInsert_cons]
    exact ih a (pyInsert l m 0)

/-- `indexOf` commutes with mapping the successor function. -/
lemma indexOf_map_succ : ∀ (l : List ℕ) (x : ℕ),
    (l.map Nat.succ).indexOf (x + 1) = l.indexOf x := by
  intro l
  induction l with
  | nil => intro x; rfl
  | cons a t ih =>
    intro x
    rw [List.map_cons]
    by_cases hax : a = x
    · subst hax
      simp [List.indexOf_cons_self]
    · have h1 : Nat.succ a ≠ x + 1 := by omega
      rw [List.indexOf_cons_ne (t.map Nat.succ) h1, List.indexOf_cons_ne t hax,
        ih x]

/-- Membership of a successor in a successor-mapped list. -/
lemma succ_mem_map_succ_iff (l : List ℕ) (x : ℕ) :
    x + 1 ∈ l.map Nat.succ ↔ x ∈ l := by
  constructor
  · intro h
    obtain ⟨y, hy, he⟩ := List.mem_map.mp h
    rwa [← Nat.succ_injective he]
  · intro h
    exact List.mem_map.mpr ⟨x, h, rfl⟩

/-- The core correctness of the match-key back-fill: inserting a zero at every
missing index of `range numRules` (in ascending order, which is how the list
comprehension produces them) turns the aligned count list into the full
per-index count list — present keys keep their counts at their key positions,
missing keys read zero. -/
lemma foldl_pyInsert_missing_eq :
    ∀ (numRules : ℕ) (keys counts : List ℕ),
      keys.Pairwise (· < ·) → (∀ k ∈ keys, k < numRules) →
      keys.length = counts.length →
      ((List.range numRules).filter (fun x => x ∉ keys)).foldl
          (fun acc n => pyInsert acc n 0) counts =
        (List.range numRules).map
          (fun i => if i ∈ keys then counts.getD (keys.indexOf i) 0 else 0) := by
  intro numRules
  induction numRules with
  | zero =>
    intro keys counts _ hbound hlen
    have hkeys : keys = [] := by
      cases keys with
      | nil => rfl
      | cons k t => exact absurd (hbound k (List.mem_cons_self k t)) (Nat.not_lt_zero k)
    subst hkeys
    have hcounts : counts = [] := (List.length_eq_zero).mp hlen.symm
    subst hcounts
    rfl
  | succ R ih =>
    intro keys counts hsorted hbound hlen
    by_cases hz : 0 ∈ keys
    · -- the smallest key is 0: position 0 keeps the head count
      obtain ⟨ktl, rfl⟩ : ∃ ktl, keys = 0 :: ktl := by
        cases keys with
        | nil => exact absurd hz (List.not_mem_nil 0)
        | cons k ktl =>
          rcases List.mem_cons.mp hz with he | hm
          · exact ⟨ktl, by rw [← he]⟩
          · exact absurd ((List.pairwise_cons.mp hsorted).1 0 hm) (Nat.not_lt_zero k)
      obtain ⟨c, ctl, rfl⟩ : ∃ c ctl, counts = c :: ctl := by
        cases counts with
        | nil => exact absurd hlen (by simp)
        | cons c ctl => exact ⟨c, ctl, rfl⟩
      obtain ⟨hk0, htl⟩ := List.pairwise_cons.mp hsorted
      have hrep : ktl = (ktl.map (fun y => y - 1)).map Nat.succ := by
        rw [List.map_map]
        refine ((List.map_congr_left ?_).trans (List.map_id ktl)).symm
        intro y hy
        have hy0 : 0 < y := hk0 y hy
        simp only [Function.comp_apply, Nat.succ_eq_add_one, id]
        omega
      set keys0 : List ℕ := ktl.map (fun y => y - 1) with hkeys0
      have hmem_succ : ∀ x : ℕ, x + 1 ∈ (0 : ℕ) :: ktl ↔ x ∈ keys0 := by
        intro x
        rw [List.mem_cons]
        constructor
        · rintro (he | hm)
          · exact absurd he (Nat.succ_ne_zero x)
          · rw [hrep] at hm
            exact (succ_mem_map_succ_iff keys0 x).mp hm
        · intro hm
          exact Or.inr (by rw [hrep]; exact (succ_mem_map_succ_iff keys0 x).mpr hm)
      have hfilter :
          ((List.range (R + 1)).filter (fun x => x ∉ (0 : ℕ) :: ktl)) =
            ((List.range R).filter (fun x => x ∉ keys0)).map Nat.succ := by
        rw [List.range_succ_eq_map, List.filter_cons,
          if_neg (by simp [hz]), List.filter_map]
        refine congrArg _ (List.filter_congr ?_)
        intro x _
        simp only [Function.comp_apply, decide_eq_decide, Nat.succ_eq_add_one]
        exact not_congr (hmem_succ x)
      have hsorted0 : keys0.Pairwise (· < ·) :=
        (List.pairwise_map.mp (hrep ▸ htl)).imp (fun h => by omega)
      have hbound0 : ∀ k ∈ keys0, k < R := by
        intro k hk
        have hmem : k + 1 ∈ ktl := by
          rw [hrep]
          exact (succ_mem_map_succ_iff keys0 k).mpr hk
        have := hbound (k + 1) (List.mem_cons_of_mem _ hmem)
        omega
      have hlen0 : keys0.length = ctl.length := by
        have : ktl.length = ctl.length := by simpa using hlen
        simpa [hkeys0] using this
      rw [hfilter, foldl_pyInsert_map_succ, ih keys0 ctl hsorted0 hbound0 hlen0,
        List.range_succ_eq_map, List.map_cons, List.map_map]
      refine congrArg₂ _ ?_ ?_
      · rw [if_pos (List.mem_cons_self 0 ktl), List.indexOf_cons_self,
          List.getD_cons_zero]
      · refine List.map_congr_left ?_
        intro x _
        show (if x ∈ keys0 then ctl.getD (keys0.indexOf x) 0 else 0) =
          (if x + 1 ∈ (0 : ℕ) :: ktl
            then (c :: ctl).getD (((0 : ℕ) :: ktl).indexOf (x + 1)) 0 else 0)
        by_cases hx : x ∈ keys0
        · rw [if_pos hx, if_pos ((hmem_succ x).mpr hx),
            List.indexOf_cons_ne ktl (fun he => Nat.succ_ne_zero x he.symm),
            hrep, indexOf_map_succ keys0 x, List.getD_cons_succ]
        · rw [if_neg hx, if_neg (fun hxk => hx ((hmem_succ x).mp hxk))]
    · -- position 0 is a missing key: a zero is inserted at the front
      have hall : ∀ y ∈ keys, 0 < y :=
        fun y hy => Nat.pos_of_ne_zero (fun he => hz (he ▸ hy))
      have hrep : keys = (keys.map (fun y => y - 1)).map Nat.succ := by
        rw [List.map_map]
        refine ((List.map_congr_left ?_).trans (List.map_id keys)).symm
        intro y hy
        have hy0 : 0 < y := hall y hy
        simp only [Function.comp_apply, Nat.succ_eq_add_one, id]
        omega
      set keys0 : List ℕ := keys.map (fun y => y - 1) with hkeys0
      have hmem_succ : ∀ x : ℕ, x + 1 ∈ keys ↔ x ∈ keys0 := by
        intro x
        constructor
        · intro hm
          rw [hrep] at hm
          exact (succ_mem_map_succ_iff keys0 x).mp hm
        · intro hm
          rw [hrep]
          exact (succ_mem_map_succ_iff keys0 x).mpr hm
      have hfilter :
          ((List.range (R + 1)).filter (fun x => x ∉ keys)) =
            0 :: ((List.range R).filter (fun x => x ∉ keys0)).map Nat.succ := by
        rw [List.range_succ_eq_map, List.filter_cons, if_pos (by simp [hz]),
          List.filter_map]
        refine congrArg _ (congrArg _ (List.filter_congr ?_))
        intro x _
        simp only [Function.comp_apply, decide_eq_decide, Nat.succ_eq_add_one]
        exact not_congr (hmem_succ x)
      have hsorted0 : keys0.Pairwise (· < ·) :=
        (List.pairwise_map.mp (hrep ▸ hsorted)).imp (fun h => by omega)
      have hbound0 : ∀ k ∈ keys0, k < R := by
        intro k hk
        have := hbound (k + 1) ((hmem_succ k).mpr hk)
        omega
      have hlen0 : keys0.length = counts.length := by
        simpa [hkeys0] using hlen
      have hstart : pyInsert counts 0 0 = 0 :: counts := by
        simp [pyInsert]
      rw [hfilter, List.foldl_cons, hstart, foldl_pyInsert_map_succ,
        ih keys0 counts hsorted0 hbound0 hlen0,
        List.range_succ_eq_map, List.map_cons, List.map_map]
      refine congrArg₂ _ ?_ ?_
      · rw [if_neg hz]
      · refine List.map_congr_left ?_
        intro x _
        show (if x ∈ keys0 then counts.getD (keys0.indexOf x) 0 else 0) =
          (if x + 1 ∈ keys then counts.getD (keys.indexOf (x + 1)) 0 else 0)
        by_cases hx : x ∈ keys0
        · rw [if_pos hx, if_pos ((hmem_succ x).mpr hx)]
          conv_rhs => rw [hrep, indexOf_map_succ keys0 x]
        · rw [if_neg hx, if_neg (fun hxk => hx ((hmem_succ x).mp hxk))]

/-- The index of `i` in `range R` is `i`. -/
lemma indexOf_range : ∀ (R i : ℕ), i < R → (List.range R).indexOf i = i := by
  intro R
  induction R with
  | zero => intro i h; exact absurd h (Nat.not_lt_zero i)
  | succ n ih =>
    intro i h
    rw [List.range_succ_eq_map]
    cases i with
    | zero => exact List.indexOf_cons_self 0 _
    | succ j =>
      rw [List.indexOf_cons_ne _ (fun he => Nat.succ_ne_zero j he.symm),
        indexOf_map_succ, ih j (by omega)]

/-- Reading every position of a list back by index reproduces the list. -/
lemma map_getD_range : ∀ l : List ℕ,
    (List.range l.length).map (fun i => l.getD i 0) = l := by
  intro l
  induction l with
  | nil => rfl
  | cons a t ih =>
    rw [List.length_cons, List.range_succ_eq_map, List.map_cons, List.map_map]
    refine congrArg₂ List.cons rfl ?_
    refine (List.map_congr_left ?_).trans ih
    intro i _
    show (a :: t).getD (i + 1) 0 = t.getD i 0
    simp [List.getD_cons_succ]

/-- A strictly sorted list of `R` naturals all below `R` is `range R`. -/
lemma sorted_bounded_eq_range (R : ℕ) (keys : List ℕ)
    (hsorted : keys.Pairwise (· < ·)) (hbound : ∀ k ∈ keys, k < R)
    (hlen : keys.length = R) : keys = List.range R := by
  have hnd : keys.Nodup := hsorted.imp (fun h => Nat.ne_of_lt h)
  have hsub : keys.toFinset ⊆ Finset.range R := by
    intro x hx
    rw [List.mem_toFinset] at hx
    exact Finset.mem_range.mpr (hbound x hx)
  have hcard : (Finset.range R).card ≤ keys.toFinset.card := by
    rw [Finset.card_range, List.toFinset_card_of_nodup hnd, hlen]
  have hfin : keys.toFinset = Finset.range R :=
    Finset.eq_of_subset_of_card_le hsub hcard
  have hmem : ∀ a, a ∈ keys ↔ a ∈ List.range R := by
    intro a
    rw [← List.mem_toFinset, hfin, Finset.mem_range, List.mem_range]
  have hperm : keys.Perm (List.range R) :=
    (List.perm_ext_iff_of_nodup hnd (List.nodup_range R)).mpr hmem
  haveI : IsAntisymm ℕ (· < ·) := ⟨fun a b h1 h2 => absurd h2 (not_lt.mpr h1.le)⟩
  exact List.eq_of_perm_of_sorted hperm hsorted (List.pairwise_lt_range R)

/-- `backfillCounts` (guard included) produces the per-index count list:
present match keys keep their group counts, missing ones read zero. -/
lemma backfillCounts_eq_map (numRules : ℕ) (brCount brKeys : List ℕ)
    (hsorted : brKeys.Pairwise (· < ·)) (hbound : ∀ k ∈ brKeys, k < numRules)
    (hlen : brKeys.length = brCount.length) :
    backfillCounts numRules brCount brKeys =
      (List.range numRules).map
        (fun i => if i ∈ brKeys then brCount.getD (brKeys.indexOf i) 0 else 0) := by
  unfold backfillCounts
  split
  · exact foldl_pyInsert_missing_eq numRules brKeys brCount hsorted hbound hlen
  · next hcnt =>
    have hR : brCount.length = numRules := not_ne_iff.mp hcnt
    have hkeys : brKeys = List.range numRules :=
      sorted_bounded_eq_range numRules brKeys hsorted hbound (by rw [hlen, hR])
    subst hkeys
    have hmap1 : (List.range numRules).map
        (fun i => if i ∈ List.range numRules
          then brCount.getD ((List.range numRules).indexOf i) 0 else 0) =
        (List.range numRules).map (fun i => brCount.getD i 0) :=
      List.map_congr_left (fun i hi => by
        rw [if_pos hi, indexOf_range numRules i (List.mem_range.mp hi)])
    rw [hmap1, ← hR]
    exact (map_getD_range brCount).symm

/-- C9: `cumulative_comparisons_generated_by_blocking_rules` emits exactly one
output record per rule, in input order; any rule generating zero rows still
appears with row count `0` at its original index — missing match keys are
back-filled by index into the count list, never dropped or appended at the
end.  Hypotheses: the group-by result is ordered by match key ascending,
match keys index the rule list, and counts align with keys. -/
theorem cumulativeBlockingRecords_one_per_rule (rules : List String)
    (brCount brKeys : List ℕ)
    (hsorted : brKeys.Pairwise (· < ·))
    (hbound : ∀ k ∈ brKeys, k < rules.length)
    (hlen : brKeys.length = brCount.length) :
    (cumulativeBlockingRecords rules brCount brKeys).length = rules.length
    ∧ (cumulativeBlockingRecords rules brCount brKeys).map Prod.snd = rules
    ∧ (cumulativeBlockingRecords rules brCount brKeys).map Prod.fst =
        (List.range rules.length).map
          (fun i => if i ∈ brKeys then brCount.getD (brKeys.indexOf i) 0 else 0) := by
  have hbf := backfillCounts_eq_map rules.length brCount brKeys hsorted hbound hlen
  have hbflen : (backfillCounts rules.length brCount brKeys).length = rules.length := by
    rw [hbf, List.length_map, List.length_range]
  unfold cumulativeBlockingRecords
  refine ⟨?_, ?_, ?_⟩
  · rw [List.length_zip, hbflen, min_self]
  · exact List.map_snd_zip _ _ (le_of_eq hbflen.symm)
  · rw [List.map_fst_zip _ _ (le_of_eq hbflen), hbf]

/-- Witness for `cumulativeBlockingRecords_one_per_rule`: three rules, match
key `1` generating zero rows and therefore back-filled at index `1`. -/
theorem cumulativeBlockingRecords_one_per_rule_witness :
    (cumulativeBlockingRecords ["l.a = r.a", "l.b = r.b", "l.c = r.c"]
        [5, 7] [0, 2]).length = 3
    ∧ (cumulativeBlockingRecords ["l.a = r.a", "l.b = r.b", "l.c = r.c"]
        [5, 7] [0, 2]).map Prod.snd = ["l.a = r.a", "l.b = r.b", "l.c = r.c"]
    ∧ (cumulativeBlockingRecords ["l.a = r.a", "l.b = r.b", "l.c = r.c"]
        [5, 7] [0, 2]).map Prod.fst =
        (List.range 3).map
          (fun i => if i ∈ [0, 2] then [5, 7].getD ([0, 2].indexOf i) 0 else 0) :=
  cumulativeBlockingRecords_one_per_rule _ _ _ (by decide) (by decide) rfl

/-- `foldBackOneLevel` never changes a level's comparison-vector value. -/
lemma foldBackOneLevel_vv (fixM fixU : Bool) (d : String) (cl ocl : CompLevel) :
    (foldBackOneLevel fixM fixU d cl ocl).comparisonVectorValue =
      ocl.comparisonVectorValue := by
  unfold foldBackOneLevel foldBackM foldBackU addTrainedM addTrainedU
  cases fixM <;> cases fixU <;>
    cases cl.mProbability <;> cases cl.uProbability <;> rfl

/-- With m probabilities not fixed, the fold-back appends exactly the trained
level's m value (sentinel or numeric) with the provenance description. -/
lemma foldBackOneLevel_trainedM (fixU : Bool) (d : String) (cl ocl : CompLevel) :
    (foldBackOneLevel false fixU d cl ocl).trainedMProbabilities =
      ocl.trainedMProbabilities ++ [⟨cl.mProbability, d⟩] := by
  unfold foldBackOneLevel foldBackM foldBackU addTrainedM addTrainedU
  cases fixU <;> cases hm : cl.mProbability <;> cases cl.uProbability <;> simp

/-- With u probabilities not fixed, the fold-back appends exactly the trained
level's u value (sentinel or numeric) with the provenance description. -/
lemma foldBackOneLevel_trainedU (fixM : Bool) (d : String) (cl ocl : CompLevel) :
    (foldBackOneLevel fixM false d cl ocl).trainedUProbabilities =
      ocl.trainedUProbabilities ++ [⟨cl.uProbability, d⟩] := by
  unfold foldBackOneLevel foldBackM foldBackU addTrainedM addTrainedU
  cases fixM <;> cases cl.mProbability <;> cases hu : cl.uProbability <;> simp

/-- Updating the first level carrying `vv` with a value-preserving function
maps the lookup at `vv` through that function. -/
lemma findLevel_updateLevel_same (vv : ℤ) (f : CompLevel → CompLevel)
    (hf : ∀ l, (f l).comparisonVectorValue = l.comparisonVectorValue) :
    ∀ lvls : List CompLevel,
      findLevelByVectorValue (updateLevelByVectorValue vv f lvls) vv =
        (findLevelByVectorValue lvls vv).map f := by
  intro lvls
  induction lvls with
  | nil => rfl
  | cons l ls ih =>
    unfold updateLevelByVectorValue
    by_cases hl : l.comparisonVectorValue = vv
    · rw [if_pos hl]
      unfold findLevelByVectorValue
      rw [List.find?_cons_of_pos _ (by simp [hf l, hl]),
        List.find?_cons_of_pos _ (by simp [hl])]
      rfl
    · rw [if_neg hl]
      unfold findLevelByVectorValue
      rw [List.find?_cons_of_neg _ (by simp [hl]),
        List.find?_cons_of_neg _ (by simp [hl])]
      exact ih

/-- Updating the first level carrying `vv` leaves lookups at other vector
values unchanged (for a value-preserving update). -/
lemma findLevel_updateLevel_other (vv vv2 : ℤ) (f : CompLevel → CompLevel)
    (hf : ∀ l, (f l).comparisonVectorValue = l.comparisonVectorValue)
    (hne : vv2 ≠ vv) :
    ∀ lvls : List CompLevel,
      findLevelByVectorValue (updateLevelByVectorValue vv f lvls) vv2 =
        findLevelByVectorValue lvls vv2 := by
  intro lvls
  induction lvls with
  | nil => rfl
  | cons l ls ih =>
    unfold updateLevelByVectorValue
    by_cases hl : l.comparisonVectorValue = vv
    · rw [if_pos hl]
      unfold findLevelByVectorValue
      rw [List.find?_cons_of_neg _ (by simp [hf l, hl]; exact fun he => hne he.symm),
        List.find?_cons_of_neg _ (by simp [hl]; exact fun he => hne he.symm)]
    · rw [if_neg hl]
      by_cases hl2 : l.comparisonVectorValue = vv2
      · unfold findLevelByVectorValue
        rw [List.find?_cons_of_pos _ (by simp [hl2]),
          List.find?_cons_of_pos _ (by simp [hl2])]
      · unfold findLevelByVectorValue
        rw [List.find?_cons_of_neg _ (by simp [hl2]),
          List.find?_cons_of_neg _ (by simp [hl2])]
        exact ih

/-- Folding updates whose vector values all differ from `vv` does not disturb
the lookup at `vv`. -/
lemma findLevel_foldLevels_frame (fixM fixU : Bool) (d : String) (vv : ℤ) :
    ∀ (cls : List CompLevel) (lvls : List CompLevel),
      (∀ c ∈ cls, c.comparisonVectorValue ≠ vv) →
      findLevelByVectorValue (cls.foldl (levelFoldStep fixM fixU d) lvls) vv =
        findLevelByVectorValue lvls vv := by
  intro cls
  induction cls with
  | nil => intro lvls _; rfl
  | cons c cs ih =>
    intro lvls hall
    rw [List.foldl_cons, ih _ (fun x hx => hall x (List.mem_cons_of_mem _ hx))]
    exact findLevel_updateLevel_other _ vv _ (foldBackOneLevel_vv fixM fixU d c)
      (fun he => hall c (List.mem_cons_self _ _) he.symm) lvls

/-- After folding all level updates of a trained comparison (with pairwise
distinct vector values), the lookup at each trained level's vector value
returns the folded-back original level. -/
lemma findLevel_foldLevels (fixM fixU : Bool) (d : String) :
    ∀ (cls : List CompLevel) (lvls : List CompLevel),
      (cls.map (fun c => c.comparisonVectorValue)).Nodup →
      ∀ cl ∈ cls, ∀ ocl,
        findLevelByVectorValue lvls cl.comparisonVectorValue = some ocl →
        findLevelByVectorValue (cls.foldl (levelFoldStep fixM fixU d) lvls)
            cl.comparisonVectorValue =
          some (foldBackOneLevel fixM fixU d cl ocl) := by
  intro cls
  induction cls with
  | nil => intro lvls _ cl hcl; exact absurd hcl (List.not_mem_nil cl)
  | cons c cs ih =>
    intro lvls hnd cl hcl ocl hfind
    rw [List.map_cons] at hnd
    obtain ⟨hhead, htail⟩ := List.nodup_cons.mp hnd
    rcases List.mem_cons.mp hcl with rfl | hcl
    · rw [List.foldl_cons,
        findLevel_foldLevels_frame fixM fixU d cl.comparisonVectorValue cs _
          (fun x hx he => hhead (by
            exact List.mem_map.mpr ⟨x, hx, he⟩))]
      unfold levelFoldStep
      rw [findLevel_updateLevel_same _ _ (foldBackOneLevel_vv fixM fixU d cl) lvls,
        hfind]
      rfl
    · rw [List.foldl_cons]
      refine ih _ htail cl hcl ocl ?_
      unfold levelFoldStep
      rw [findLevel_updateLevel_other c.comparisonVectorValue
        cl.comparisonVectorValue _ (foldBackOneLevel_vv fixM fixU d c)
        (fun he => hhead (List.mem_map.mpr ⟨cl, hcl, he⟩)) lvls]
      exact hfind

/-- Updating the first comparison carrying `name` with a name-preserving
function maps the lookup at `name` through that function. -/
lemma findComp_updateComp_same (name : String) (f : ComparisonModel → ComparisonModel)
    (hf : ∀ c, (f c).outputColumnName = c.outputColumnName) :
    ∀ comps : List ComparisonModel,
      findCompByName (updateCompByName name f comps) name =
        (findCompByName comps name).map f := by
  intro comps
  induction comps with
  | nil => rfl
  | cons c cs ih =>
    unfold updateCompByName
    by_cases hc : c.outputColumnName = name
    · rw [if_pos hc]
      unfold findCompByName
      rw [List.find?_cons_of_pos _ (by simp [hf c, hc]),
        List.find?_cons_of_pos _ (by simp [hc])]
      rfl
    · rw [if_neg hc]
      unfold findCompByName
      rw [List.find?_cons_of_neg _ (by simp [hc]),
        List.find?_cons_of_neg _ (by simp [hc])]
      exact ih

/-- Updating the first comparison carrying `name` leaves lookups under other
names unchanged (for a name-preserving update). -/
lemma findComp_updateComp_other (name name2 : String)
    (f : ComparisonModel → ComparisonModel)
    (hf : ∀ c, (f c).outputColumnName = c.outputColumnName)
    (hne : name2 ≠ name) :
    ∀ comps : List ComparisonModel,
      findCompByName (updateCompByName name f comps) name2 =
        findCompByName comps name2 := by
  intro comps
  induction comps with
  | nil => rfl
  | cons c cs ih =>
    unfold updateCompByName
    by_cases hc : c.outputColumnName = name
    · rw [if_pos hc]
      unfold findCompByName
      rw [List.find?_cons_of_neg _ (by simp [hf c, hc]; exact fun he => hne he.symm),
        List.find?_cons_of_neg _ (by simp [hc]; exact fun he => hne he.symm)]
    · rw [if_neg hc]
      by_cases hc2 : c.outputColumnName = name2
      · unfold findCompByName
        rw [List.find?_cons_of_pos _ (by simp [hc2]),
          List.find?_cons_of_pos _ (by simp [hc2])]
      · unfold findCompByName
        rw [List.find?_cons_of_neg _ (by simp [hc2]),
          List.find?_cons_of_neg _ (by simp [hc2])]
        exact ih

/-- `foldBackComp` preserves every comparison's output column name, so
fold-backs of comparisons with other names do not disturb a lookup. -/
lemma findComp_foldBack_frame (fixM fixU : Bool) (d : String) (name : String) :
    ∀ (ccs : List ComparisonModel) (orig : List ComparisonModel),
      (∀ cc ∈ ccs, cc.outputColumnName ≠ name) →
      findCompByName (ccs.foldl (fun acc cc => foldBackComp fixM fixU d cc acc) orig)
          name =
        findCompByName orig name := by
  intro ccs
  induction ccs with
  | nil => intro orig _; rfl
  | cons cc ccs ih =>
    intro orig hall
    rw [List.foldl_cons, ih _ (fun x hx => hall x (List.mem_cons_of_mem _ hx))]
    unfold foldBackComp
    exact findComp_updateComp_other _ name
      (fun oc => { oc with comparisonLevels :=
          (cc.comparisonLevels.foldl (levelFoldStep fixM fixU d)
            oc.comparisonLevels) })
      (fun c => rfl)
      (fun he => hall cc (List.mem_cons_self _ _) he.symm) orig

/-- After the complete fold-back of the final snapshot (with pairwise distinct
output column names), the lookup at each trained comparison's name returns the
original comparison with its levels folded. -/
lemma findComp_foldBackTrainedValues (fixM fixU : Bool) (d : String) :
    ∀ (ccs : List ComparisonModel) (orig : List ComparisonModel),
      (ccs.map (fun c => c.outputColumnName)).Nodup →
      ∀ cc ∈ ccs, ∀ oc,
        findCompByName orig cc.outputColumnName = some oc →
        findCompByName (foldBackTrainedValues fixM fixU d ccs orig)
            cc.outputColumnName =
          some { oc with comparisonLevels :=
              (cc.comparisonLevels.foldl (levelFoldStep fixM fixU d)
                oc.comparisonLevels) } := by
  intro ccs
  induction ccs with
  | nil => intro orig _ cc hcc; exact absurd hcc (List.not_mem_nil cc)
  | cons c cs ih =>
    intro orig hnd cc hcc oc hfind
    rw [List.map_cons] at hnd
    obtain ⟨hhead, htail⟩ := List.nodup_cons.mp hnd
    unfold foldBackTrainedValues
    rcases List.mem_cons.mp hcc with rfl | hcc
    · rw [List.foldl_cons,
        findComp_foldBack_frame fixM fixU d cc.outputColumnName cs _
          (fun x hx he => hhead (List.mem_map.mpr ⟨x, hx, he⟩))]
      unfold foldBackComp
      rw [findComp_updateComp_same _
        (fun oc => { oc with comparisonLevels :=
            (cc.comparisonLevels.foldl (levelFoldStep fixM fixU d)
              oc.comparisonLevels) })
        (fun x => rfl) orig, hfind]
      rfl
    · rw [List.foldl_cons]
      refine ih _ htail cc hcc oc ?_
      unfold foldBackComp
      rw [findComp_updateComp_other c.outputColumnName cc.outputColumnName
        (fun oc => { oc with comparisonLevels :=
            (c.comparisonLevels.foldl (levelFoldStep fixM fixU d)
              oc.comparisonLevels) })
        (fun x => rfl) (fun he => hhead (List.mem_map.mpr ⟨cc, hcc, he⟩)) orig]
      exact hfind

/-- C4: After `_train` completes, for every comparison level of the final EM
snapshot, the fold-back into the original canonical model appends to that
level's trained-probability history the explicit not-observed sentinel when
the trained m (resp. u) value is the sentinel — rather than a numeric value —
and the numeric trained value when the level was observed, tagged with the
`"EM, blocked on: ..."` provenance; so the canonical model distinguishes
"unobserved" from "probability ≈ 0". -/
theorem emTrain_foldback_not_observed {α : Type} (cfg : TrainingConfig)
    (origComps : List ComparisonModel) (backendRows : List α)
    (emEngine : List α → List (List ComparisonModel))
    (finalComps newComps : List ComparisonModel) (evs : List TrainEvent)
    (hlast : (emEngine backendRows).getLast? = some finalComps)
    (hrun : emTrain cfg origComps none backendRows emEngine = (.ok newComps, evs))
    (hndnames : (finalComps.map (fun c => c.outputColumnName)).Nodup)
    (hndvvs : ∀ cc ∈ finalComps,
      (cc.comparisonLevels.map (fun l => l.comparisonVectorValue)).Nodup) :
    ∀ cc ∈ finalComps, ∀ cl ∈ cc.comparisonLevels,
      ∀ oc, findCompByName origComps cc.outputColumnName = some oc →
      ∀ ocl, findLevelByVectorValue oc.comparisonLevels cl.comparisonVectorValue =
          some ocl →
      ∃ ocl2,
        (findCompByName newComps cc.outputColumnName).map
            (fun oc2 => findLevelByVectorValue oc2.comparisonLevels
              cl.comparisonVectorValue) = some (some ocl2)
        ∧ (cfg.fixMProbabilities = false →
            (cl.mProbability = ProbValue.notObserved →
              ocl2.trainedMProbabilities = ocl.trainedMProbabilities ++
                [⟨ProbValue.notObserved, "EM, blocked on: " ++ cfg.blockingRuleSql⟩])
            ∧ ∀ q : ℚ, cl.mProbability = ProbValue.num q →
              ocl2.trainedMProbabilities = ocl.trainedMProbabilities ++
                [⟨ProbValue.num q, "EM, blocked on: " ++ cfg.blockingRuleSql⟩])
        ∧ (cfg.fixUProbabilities = false →
            (cl.uProbability = ProbValue.notObserved →
              ocl2.trainedUProbabilities = ocl.trainedUProbabilities ++
                [⟨ProbValue.notObserved, "EM, blocked on: " ++ cfg.blockingRuleSql⟩])
            ∧ ∀ q : ℚ, cl.uProbability = ProbValue.num q →
              ocl2.trainedUProbabilities = ocl.trainedUProbabilities ++
                [⟨ProbValue.num q, "EM, blocked on: " ++ cfg.blockingRuleSql⟩]) := by
  have hnew : newComps = foldBackTrainedValues cfg.fixMProbabilities
      cfg.fixUProbabilities ("EM, blocked on: " ++ cfg.blockingRuleSql)
      finalComps origComps := by
    cases htl : trainingLogMessage cfg with
    | error e =>
      have hred : emTrain cfg origComps (none : Option (List α)) backendRows emEngine =
          (.error e, []) := by
        simp [emTrain, comparisonVectors, htl]
      rw [hred] at hrun
      exact Except.noConfusion (congrArg Prod.fst hrun)
    | ok u =>
      by_cases hemp : backendRows.isEmpty
      · have hred : emTrain cfg origComps (none : Option (List α)) backendRows emEngine =
            (.error (.emTrainingException
                (emTrainingExceptionMessage cfg.blockingRuleSql)),
             [TrainEvent.sqlPipelineExecuted]) := by
          simp [emTrain, comparisonVectors, htl, hemp]
        rw [hred] at hrun
        exact Except.noConfusion (congrArg Prod.fst hrun)
      · have hred : emTrain cfg origComps (none : Option (List α)) backendRows emEngine =
            (.ok (foldBackTrainedValues cfg.fixMProbabilities
                cfg.fixUProbabilities
                ("EM, blocked on: " ++ cfg.blockingRuleSql) finalComps origComps),
             [TrainEvent.sqlPipelineExecuted, TrainEvent.emEngineInvoked]) := by
          simp [emTrain, comparisonVectors, htl, hemp, hlast]
        rw [hred] at hrun
        simp only [Prod.mk.injEq, Except.ok.injEq] at hrun
        exact hrun.1.symm
  intro cc hcc cl hcl oc hoc ocl hocl
  refine ⟨foldBackOneLevel cfg.fixMProbabilities cfg.fixUProbabilities
    ("EM, blocked on: " ++ cfg.blockingRuleSql) cl ocl, ?_, ?_, ?_⟩
  · rw [hnew, findComp_foldBackTrainedValues cfg.fixMProbabilities
      cfg.fixUProbabilities _ finalComps origComps hndnames cc hcc oc hoc]
    rw [Option.map_some']
    refine congrArg _ ?_
    exact findLevel_foldLevels cfg.fixMProbabilities cfg.fixUProbabilities _
      cc.comparisonLevels oc.comparisonLevels (hndvvs cc hcc) cl hcl ocl hocl
  · intro hfm
    have hM : (foldBackOneLevel cfg.fixMProbabilities cfg.fixUProbabilities
        ("EM, blocked on: " ++ cfg.blockingRuleSql) cl ocl).trainedMProbabilities =
        ocl.trainedMProbabilities ++
          [⟨cl.mProbability, "EM, blocked on: " ++ cfg.blockingRuleSql⟩] := by
      rw [hfm]
      exact foldBackOneLevel_trainedM cfg.fixUProbabilities _ cl ocl
    exact ⟨fun hm => by rw [hM, hm], fun q hm => by rw [hM, hm]⟩
  · intro hfu
    have hU : (foldBackOneLevel cfg.fixMProbabilities cfg.fixUProbabilities
        ("EM, blocked on: " ++ cfg.blockingRuleSql) cl ocl).trainedUProbabilities =
        ocl.trainedUProbabilities ++
          [⟨cl.uProbability, "EM, blocked on: " ++ cfg.blockingRuleSql⟩] := by
      rw [hfu]
      exact foldBackOneLevel_trainedU cfg.fixMProbabilities _ cl ocl
    exact ⟨fun hu => by rw [hU, hu], fun q hu => by rw [hU, hu]⟩

/-- Witness for `emTrain_foldback_not_observed`: a session with nothing fixed
blocking on `l.dob = r.dob`, whose final snapshot never observed the m value
of the level with vector value 1; the fold-back appends the sentinel (not a
number) to that original level's trained m history, and the numeric `3` to
its trained u history. -/
theorem emTrain_foldback_not_observed_witness :
    ∃ ocl2,
      (findCompByName (foldBackTrainedValues false false
            ("EM, blocked on: " ++ "l.dob = r.dob") foldbackWitnessFinal
            foldbackWitnessOrig) "surname").map
          (fun oc2 => findLevelByVectorValue oc2.comparisonLevels 1) =
        some (some ocl2)
      ∧ (false = false →
          (ProbValue.notObserved = ProbValue.notObserved →
            ocl2.trainedMProbabilities =
              ([] : List TrainedProb) ++
                [⟨ProbValue.notObserved, "EM, blocked on: " ++ "l.dob = r.dob"⟩])
          ∧ ∀ q : ℚ, ProbValue.notObserved = ProbValue.num q →
            ocl2.trainedMProbabilities =
              ([] : List TrainedProb) ++
                [⟨ProbValue.num q, "EM, blocked on: " ++ "l.dob = r.dob"⟩])
      ∧ (false = false →
          (ProbValue.num 3 = ProbValue.notObserved →
            ocl2.trainedUProbabilities = ([] : List TrainedProb) ++
              [⟨ProbValue.notObserved, "EM, blocked on: " ++ "l.dob = r.dob"⟩])
          ∧ ∀ q : ℚ, ProbValue.num 3 = ProbValue.num q →
            ocl2.trainedUProbabilities = ([] : List TrainedProb) ++
              [⟨ProbValue.num q, "EM, blocked on: " ++ "l.dob = r.dob"⟩]) :=
  emTrain_foldback_not_observed (α := ℕ)
    ⟨false, false, false, "l.dob = r.dob"⟩ foldbackWitnessOrig [0]
    (fun _ => [foldbackWitnessFinal]) foldbackWitnessFinal
    (foldBackTrainedValues false false ("EM, blocked on: " ++ "l.dob = r.dob")
      foldbackWitnessFinal foldbackWitnessOrig)
    [TrainEvent.sqlPipelineExecuted, TrainEvent.emEngineInvoked]
    rfl rfl (by decide) (by decide)
    ⟨"surname", [⟨1, ProbValue.notObserved, ProbValue.num 3, [], []⟩,
      ⟨2, ProbValue.num 7, ProbValue.notObserved, [], []⟩]⟩
    (List.mem_cons_self _ _)
    ⟨1, ProbValue.notObserved, ProbValue.num 3, [], []⟩
    (List.mem_cons_self _ _)
    ⟨"surname", [⟨1, ProbValue.num 1, ProbValue.num 1, [], []⟩,
      ⟨2, ProbValue.num 1, ProbValue.num 1, [], []⟩]⟩
    rfl
    ⟨1, ProbValue.num 1, ProbValue.num 1, [], []⟩
    rfl

end Splink
